import Mathlib

/-!
Verification of the River storage engine (0xReLogic/River) against its
natural-language specification.  The Go sources are shallowly embedded:
byte sequences are lists of naturals (each element a byte value), machine
integers are naturals or integers with explicit wrap-around where it
matters, fallible operations return Except, and the file system and
clock are passed in explicitly as data.  Locks are elided except where a
single goroutine re-acquires a lock it already holds, which is modelled
explicitly because it is deterministic.
-/

set_option maxRecDepth 4000

namespace River

/-! ## Little-endian byte encoding (Go encoding/binary, LittleEndian) -/

/-- Read the little-endian value of the first `k` bytes of a list
(missing bytes count as zero; the models check lengths before reading,
mirroring the bounds checks Go performs when slicing). -/
def readLE : Nat → List Nat → Nat
  | 0, _ => 0
  | _ + 1, [] => 0
  | k + 1, b :: bs => b + 256 * readLE k bs

/-- Little-endian encoding of a 32-bit value, as written by
binary.LittleEndian.PutUint32. -/
def le32 (n : Nat) : List Nat :=
  [n % 256, n / 256 % 256, n / 65536 % 256, n / 16777216 % 256]

/-- Little-endian encoding of a 64-bit value, as written by
binary.LittleEndian.PutUint64. -/
def le64 (n : Nat) : List Nat :=
  le32 (n % 4294967296) ++ le32 (n / 4294967296)

/-! ## CRC32C (Castagnoli), as used by hash/crc32 with crc32.Castagnoli.
Modelled from the spec: CRC32C (Castagnoli) over the payload; the Go
standard library implementation is table-driven but computes the standard
reflected CRC-32C, which is what is defined here bit by bit. -/

def crcPoly : Nat := 0x82F63B78

/-- One bit step of the reflected CRC32C computation. -/
def crcStepBit (c : Nat) : Nat :=
  if c % 2 = 1 then (c / 2) ^^^ crcPoly else c / 2

/-- Iterate the bit step `k` times. -/
def crcBits : Nat → Nat → Nat
  | 0, c => c
  | k + 1, c => crcBits k (crcStepBit c)

/-- CRC32C checksum of a byte list (initial value 0xFFFFFFFF, final
complement), equal to Go crc32.Checksum(data, crc32.MakeTable(crc32.Castagnoli)). -/
def crc32c (data : List Nat) : Nat :=
  (data.foldl (fun c b => crcBits 8 (c ^^^ b)) 0xFFFFFFFF) ^^^ 0xFFFFFFFF

/-! ## WAL records (internal/storage/wal.go) -/

/-- WALEntry mirrors storage.WALEntry: timestamp (unix nanoseconds),
operation type (1 = Put, 2 = Delete), key and value byte strings.  A Go
nil value slice is the empty list. -/
structure WALEntry where
  timestamp : Nat
  opType : Nat
  key : List Nat
  value : List Nat
deriving DecidableEq

/-- The payload of one WAL record exactly as WAL.append serializes it:
timestamp, op byte, key length, key, then for Put the value length and
value and for any other op a zero value length with no value bytes. -/
def walPayload (e : WALEntry) : List Nat :=
  le64 e.timestamp ++ [e.opType] ++ le32 e.key.length ++ e.key ++
    (if e.opType = 1 then le32 e.value.length ++ e.value else le32 0)

/-- The full on-disk bytes WAL.append writes for one record.  The stored
CRC is computed over buf[4:offset], which is the 4-byte entry-size field
followed by the payload (wal.go line 221). -/
def walAppendRecordBytes (e : WALEntry) : List Nat :=
  let payload := walPayload e
  le32 (crc32c (le32 payload.length ++ payload)) ++ le32 payload.length ++ payload

/-- A record framed the way WAL.replayFileFrom expects to validate it:
the stored CRC is CRC32C of the payload alone (wal.go line 372).  Used to
build well-formed inputs for the replay model. -/
def walRecordBytesReadSide (e : WALEntry) : List Nat :=
  let payload := walPayload e
  le32 (crc32c payload) ++ le32 payload.length ++ payload

/-- Contents of a WAL file holding the given records back to back, each
framed so that its stored CRC validates on read. -/
def walFileBytes (es : List WALEntry) : List Nat :=
  (es.map walRecordBytesReadSide).flatten

/-- The field parsing of one validated record payload (wal.go lines
377-412): timestamp, op byte, key length, key, value length, value (value
absent when the stored length is zero).  Out-of-range slicing, which
panics in Go, is modelled as an error. -/
def parseEntryData (data : List Nat) : Except String WALEntry :=
  let ts := readLE 8 data
  if data.length < 13 then Except.error "panic: index out of range"
  else
    let op := (data.drop 8).headD 0
    let keyLen := readLE 4 (data.drop 9)
    if data.length < 13 + keyLen then Except.error "panic: slice bounds out of range"
    else
      let key := (data.drop 13).take keyLen
      if data.length < 17 + keyLen then Except.error "panic: index out of range"
      else
        let valueLen := readLE 4 (data.drop (13 + keyLen))
        if data.length < 17 + keyLen + valueLen then
          Except.error "panic: slice bounds out of range"
        else
          Except.ok ⟨ts, op, key,
            if 0 < valueLen then (data.drop (17 + keyLen)).take valueLen else []⟩

/-- The record-reading loop of WAL.replayFileFrom, on the raw bytes of
one file.  Fuel is structural; each iteration consumes at least eight
bytes, so bytes.length + 1 fuel always suffices.  Applied entries are
accumulated in order in place of invoking the callback.  Note that the
CRC of a record is verified before the timestamp cutoff is consulted, and
a record at or below the cutoff is skipped without parsing its fields. -/
def replayLoop : Nat → List Nat → Nat → List WALEntry → Except String (List WALEntry)
  | 0, _, _, _ => Except.error "fuel exhausted"
  | fuel + 1, bytes, fromTs, acc =>
    if bytes = [] then Except.ok acc
    else if bytes.length < 8 then Except.error "failed to read WAL entry header"
    else
      let crc := readLE 4 bytes
      let entrySize := readLE 4 (bytes.drop 4)
      let rest := bytes.drop 8
      if rest.length < entrySize then Except.error "failed to read WAL entry data"
      else
        let data := rest.take entrySize
        if crc32c data = crc then
          if data.length < 8 then Except.error "panic: index out of range"
          else if readLE 8 data ≤ fromTs then replayLoop fuel (rest.drop entrySize) fromTs acc
          else
            (parseEntryData data).bind
              (fun ent => replayLoop fuel (rest.drop entrySize) fromTs (acc ++ [ent]))
        else Except.error "WAL entry corrupted: CRC mismatch"

/-- WAL.replayFileFrom on the bytes of a single file. -/
def replayFileBytes (bytes : List Nat) (fromTs : Nat) : Except String (List WALEntry) :=
  replayLoop (bytes.length + 1) bytes fromTs []

/-- WAL.ReplayFrom over a directory listing, given as pairs of filename
timestamp and file contents.  Files whose filename timestamp is below
fromTs are dropped (wal.go line 302), the survivors are sorted by
filename timestamp ascending, and each file is replayed in turn. -/
def replayFromModel (files : List (Nat × List Nat)) (fromTs : Nat) :
    Except String (List WALEntry) :=
  let kept := files.filter (fun f => fromTs ≤ f.1)
  let sorted := List.insertionSort (fun a b : Nat × List Nat => a.1 ≤ b.1) kept
  sorted.foldlM (fun acc f => (replayFileBytes f.2 fromTs).map (fun l => acc ++ l)) []

/-- A WAL file given as structured data: its filename timestamp and the
records it holds. -/
structure WalFileM where
  ts : Nat
  ents : List WALEntry

/-- Well-formedness of a WALEntry as produced by a real process: byte
values in range, sizes within 32-bit limits, and no value bytes on a
non-Put record. -/
def WFEntry (e : WALEntry) : Prop :=
  e.timestamp < 9223372036854775808 ∧
  e.opType < 256 ∧
  e.key.length + e.value.length + 17 < 4294967296 ∧
  (∀ b ∈ e.key, b < 256) ∧
  (∀ b ∈ e.value, b < 256) ∧
  (e.opType = 1 ∨ e.value = [])

instance (e : WALEntry) : Decidable (WFEntry e) := by
  unfold WFEntry; infer_instance

/-! ## Byte-string ordering (Go bytes.Compare and string comparison) -/

/-- Strict lexicographic order on byte strings: bytes.Compare a b < 0. -/
def keyLt : List Nat → List Nat → Bool
  | [], [] => false
  | [], _ :: _ => true
  | _ :: _, [] => false
  | a :: as, b :: bs => if a < b then true else if b < a then false else keyLt as bs

/-- Lexicographic order on byte strings: bytes.Compare a b ≤ 0, which is
also Go string comparison of the corresponding strings. -/
def keyLe : List Nat → List Nat → Bool
  | [], _ => true
  | _ :: _, [] => false
  | a :: as, b :: bs => if a < b then true else if b < a then false else keyLe as bs

/-! ## Block codec (internal/data/block/block.go) -/

/-- A key-value pair stored in a Block, mirroring block.keyValuePair. -/
structure KeyValuePair where
  key : List Nat
  value : List Nat
deriving DecidableEq

/-- The order Finalize sorts pairs with: bytes.Compare on keys < 0. -/
def pairLt (p q : KeyValuePair) : Prop := keyLt p.key q.key = true

instance : DecidableRel pairLt := fun p q => by unfold pairLt; infer_instance

/-- Sorting of the pair list performed at the top of Block.Finalize.  Go
sort.Slice is an unstable sort, but for the distinct keys required here
any comparison sort produces the unique sorted permutation, so insertion
sort with the non-strict key order embeds it. -/
def pairLe (p q : KeyValuePair) : Prop := keyLe p.key q.key = true

instance : DecidableRel pairLe := fun p q => by unfold pairLe; infer_instance

def sortPairs (ps : List KeyValuePair) : List KeyValuePair :=
  List.insertionSort pairLe ps

/-- Serialized form of one pair inside the block payload: key length,
key, value length, value (Block.Finalize lines 152-174). -/
def pairBytes (p : KeyValuePair) : List Nat :=
  le32 p.key.length ++ p.key ++ le32 p.value.length ++ p.value

/-- The block payload Finalize builds: the pair count, then each pair in
sorted-key order.  This is the b.Data byte string the SHA-256 block id is
computed over and that Encode writes after the header and stats. -/
def finalizePayload (ps : List KeyValuePair) : List Nat :=
  let sorted := sortPairs ps
  le32 sorted.length ++ (sorted.map pairBytes).flatten

/-- Stats.MinKey as maintained by Block.Add: starts empty and is
replaced whenever the incoming key is nonempty-smaller or the current
minimum is empty. -/
def blockMinKey (ps : List KeyValuePair) : List Nat :=
  ps.foldl (fun cur p => if cur.length = 0 || keyLt p.key cur then p.key else cur) []

/-- Stats.MaxKey as maintained by Block.Add. -/
def blockMaxKey (ps : List KeyValuePair) : List Nat :=
  ps.foldl (fun cur p => if cur.length = 0 || keyLt cur p.key then p.key else cur) []

/-! ## SHA-256 (crypto/sha256), used for the block id.
Modelled from the spec: block_id must equal SHA-256 of the payload as
written; the standard FIPS 180-4 algorithm is implemented here over
byte lists, with 32-bit words represented as naturals reduced mod 2^32. -/

def w32 : Nat := 4294967296

def rotr32 (n x : Nat) : Nat := ((x >>> n) ||| (x <<< (32 - n))) % w32

def shaBigSigma0 (x : Nat) : Nat := rotr32 2 x ^^^ rotr32 13 x ^^^ rotr32 22 x

def shaBigSigma1 (x : Nat) : Nat := rotr32 6 x ^^^ rotr32 11 x ^^^ rotr32 25 x

def shaSmallSigma0 (x : Nat) : Nat := rotr32 7 x ^^^ rotr32 18 x ^^^ (x >>> 3)

def shaSmallSigma1 (x : Nat) : Nat := rotr32 17 x ^^^ rotr32 19 x ^^^ (x >>> 10)

def shaCh (x y z : Nat) : Nat := (x &&& y) ^^^ ((x ^^^ (w32 - 1)) &&& z)

def shaMaj (x y z : Nat) : Nat := (x &&& y) ^^^ (x &&& z) ^^^ (y &&& z)

def shaK : List Nat :=
  [1116352408, 1899447441, 3049323471, 3921009573] ++
  [961987163, 1508970993, 2453635748, 2870763221] ++
  [3624381080, 310598401, 607225278, 1426881987] ++
  [1925078388, 2162078206, 2614888103, 3248222580] ++
  [3835390401, 4022224774, 264347078, 604807628] ++
  [770255983, 1249150122, 1555081692, 1996064986] ++
  [2554220882, 2821834349, 2952996808, 3210313671] ++
  [3336571891, 3584528711, 113926993, 338241895] ++
  [666307205, 773529912, 1294757372, 1396182291] ++
  [1695183700, 1986661051, 2177026350, 2456956037] ++
  [2730485921, 2820302411, 3259730800, 3345764771] ++
  [3516065817, 3600352804, 4094571909, 275423344] ++
  [430227734, 506948616, 659060556, 883997877] ++
  [958139571, 1322822218, 1537002063, 1747873779] ++
  [1955562222, 2024104815, 2227730452, 2361852424] ++
  [2428436474, 2756734187, 3204031479, 3329325298]

def shaH0 : List Nat :=
  [1779033703, 3144134277, 1013904242, 2773480762] ++
  [1359893119, 2600822924, 528734635, 1541459225]

/-- Big-endian bytes of a 32-bit word. -/
def be32 (n : Nat) : List Nat :=
  [n / 16777216 % 256, n / 65536 % 256, n / 256 % 256, n % 256]

/-- Big-endian bytes of a 64-bit value. -/
def be64 (n : Nat) : List Nat :=
  be32 (n / 4294967296) ++ be32 (n % 4294967296)

/-- SHA-256 padding: append 0x80, zero bytes to 56 mod 64, then the
original bit length as 8 big-endian bytes. -/
def shaPad (msg : List Nat) : List Nat :=
  let zeros := (55 + 64 - msg.length % 64) % 64
  msg ++ [0x80] ++ List.replicate zeros 0 ++ be64 (8 * msg.length)

/-- Group a padded message into big-endian 32-bit words. -/
def shaWords : List Nat → List Nat
  | b0 :: b1 :: b2 :: b3 :: rest =>
      (b0 * 16777216 + b1 * 65536 + b2 * 256 + b3) % w32 :: shaWords rest
  | _ => []

/-- Extend 16 message words to the 64-entry schedule. -/
def shaExtend (ws : List Nat) : Nat → List Nat
  | 0 => ws
  | k + 1 =>
      let prev := shaExtend ws k
      let i := prev.length
      prev ++ [(shaSmallSigma1 (prev.getD (i - 2) 0) + prev.getD (i - 7) 0 +
                shaSmallSigma0 (prev.getD (i - 15) 0) + prev.getD (i - 16) 0) % w32]

/-- One round of the SHA-256 compression function. -/
def shaRound (st : List Nat) (kw : Nat × Nat) : List Nat :=
  match st with
  | [a, b, c, d, e, f, g, h] =>
      let t1 := (h + shaBigSigma1 e + shaCh e f g + kw.1 + kw.2) % w32
      let t2 := (shaBigSigma0 a + shaMaj a b c) % w32
      [(t1 + t2) % w32, a, b, c, (d + t1) % w32, e, f, g]
  | other => other

/-- Compress one 64-byte chunk into the running hash state. -/
def shaChunk (h : List Nat) (chunk : List Nat) : List Nat :=
  let ws := shaExtend (shaWords chunk) 48
  let st := (shaK.zip ws).foldl shaRound h
  (h.zip st).map (fun p => (p.1 + p.2) % w32)

/-- Split a list into 64-byte chunks; the fuel is the list length, which
bounds the chunk count since every chunk takes at least one byte. -/
def shaChunksGo : Nat → List Nat → List (List Nat)
  | 0, _ => []
  | _ + 1, [] => []
  | fuel + 1, b :: rest => (b :: rest).take 64 :: shaChunksGo fuel (rest.drop 63)

def shaChunks (l : List Nat) : List (List Nat) := shaChunksGo l.length l

/-- SHA-256 digest of a byte list, 32 bytes. -/
def sha256Bytes (msg : List Nat) : List Nat :=
  (((shaChunks (shaPad msg)).foldl shaChunk shaH0).map be32).flatten

/-- Header.BlockID as set at the end of Block.Finalize: the SHA-256 hash
of the payload bytes just built. -/
def finalizeBlockID (ps : List KeyValuePair) : List Nat :=
  sha256Bytes (finalizePayload ps)

/-- The bytes Block.Encode writes: the fixed header (data type,
compression type, count, raw size, stored size, created-at, block id),
the stats (numeric min and max, min key, max key), then the payload. -/
def blockFileBytes (createdAt : Nat) (ps : List KeyValuePair) : List Nat :=
  let payload := finalizePayload ps
  [0, 0] ++ le32 ps.length ++ le32 payload.length ++ le32 payload.length ++
    le64 createdAt ++ finalizeBlockID ps ++
    le64 0 ++ le64 0 ++
    le32 (blockMinKey ps).length ++ blockMinKey ps ++
    le32 (blockMaxKey ps).length ++ blockMaxKey ps ++
    payload

/-! ## LSM tree (storage.LSMTree) -/

/-- keyInRange from the LSM tree: minKey ≤ key ≤ maxKey in Go string
order. -/
def keyInRange (key mn mx : List Nat) : Bool :=
  keyLe mn key && keyLe key mx

/-- In-memory metadata of one on-disk block, mirroring storage.blockInfo,
together with the decoded record list of the block file it points to (the
read path decodes the file on every lookup; decoding a file produced by
Encode yields back the sorted pairs, so the records stand for the file
contents). -/
structure BlockM where
  path : List Nat
  size : Int
  minKey : List Nat
  maxKey : List Nat
  createdAt : Nat
  records : List KeyValuePair
deriving DecidableEq

/-- Block.Get: linear scan of the pairs, an error when the key is
absent. -/
def blockGet (records : List KeyValuePair) (key : List Nat) :
    Except String (List Nat) :=
  match records.find? (fun p => p.key == key) with
  | some p => Except.ok p.value
  | none => Except.error "key not found"

/-- The level-0 scan of LSMTree.Read: blocks newest (last) to oldest,
trying every block whose range contains the key, falling through on a
miss. -/
def readL0 (blocks : List BlockM) (key : List Nat) : Option (List Nat) :=
  blocks.reverse.findSome? (fun b =>
    if keyInRange key b.minKey b.maxKey then (blockGet b.records key).toOption else none)

/-- The binary-search loop of LSMTree.findBlockIndex.  Left and right are
integers because right starts at length - 1 and may pass below left; the
interval shrinks every step so blocks.length + 1 fuel suffices. -/
def findLoop : Nat → List BlockM → List Nat → Int → Int → Option Nat
  | 0, _, _, _, _ => none
  | fuel + 1, blocks, key, left, right =>
    if left > right then none
    else
      let mid := (left + right) / 2
      match blocks.get? mid.toNat with
      | none => none
      | some b =>
        if keyLt key b.minKey then findLoop fuel blocks key left (mid - 1)
        else if keyLt b.maxKey key then findLoop fuel blocks key (mid + 1) right
        else some mid.toNat

/-- LSMTree.findBlockIndex over one level; none stands for the -1 result. -/
def findBlockIdx (blocks : List BlockM) (key : List Nat) : Option Nat :=
  findLoop (blocks.length + 1) blocks key 0 ((blocks.length : Int) - 1)

/-- Lookup in one of the levels 1..6: binary search for the candidate
block, then read it, falling through to the next level on a miss. -/
def readLevel (blocks : List BlockM) (key : List Nat) : Option (List Nat) :=
  match findBlockIdx blocks key with
  | none => none
  | some i =>
    match blocks.get? i with
    | none => none
    | some b => (blockGet b.records key).toOption

/-- LSMTree.Read: level 0 newest first, then levels 1..6; an error when
every level misses. -/
def lsmReadModel (levels : List (List BlockM)) (key : List Nat) :
    Except String (List Nat) :=
  match levels with
  | [] => Except.error "key not found"
  | l0 :: rest =>
    match readL0 l0 key with
    | some v => Except.ok v
    | none =>
      match rest.findSome? (fun lv => readLevel lv key) with
      | some v => Except.ok v
      | none => Except.error "key not found"

/-! ## Recovery scan of block files (LSMTree.loadExistingBlocks) -/

/-- Block metadata as used by the recovery scan and by compaction tasks,
mirroring storage.blockInfo without the inlined file contents. -/
structure BlockInfoM where
  path : List Nat
  size : Int
  minKey : List Nat
  maxKey : List Nat
deriving DecidableEq

/-- What loadExistingBlocks records for one .blk directory entry: size
and modification time from the file system, and as minimum and maximum
key the bytes of the file name, a placeholder that never reads the block
header. -/
def loadBlockEntryModel (name : List Nat) (size : Int) : BlockInfoM :=
  { path := name, size := size, minKey := name, maxKey := name }

/-! ## Compaction (storage.CompactionManager) -/

/-- Result of CompactionManager.compact on one task: the bytes written to
the newly created target block file, the deleted source paths, and the
byte counters.  The worker creates the target file and then only counts
bytes for each merged pair; no write call is ever issued against the
file, and the placeholder merge feeds one pair per source block using its
minimum key.  Afterwards every source block file is removed. -/
structure CompactResultM where
  outputBytes : List Nat
  deletedPaths : List (List Nat)
  bytesRead : Int
  bytesWritten : Int
deriving DecidableEq

def compactModel (blocks : List BlockInfoM) : CompactResultM :=
  { outputBytes := []
    deletedPaths := blocks.map (fun b => b.path)
    bytesRead := (blocks.map (fun b => b.size)).sum
    bytesWritten := (blocks.map (fun b => (b.minKey.length : Int) + 17)).sum }

/-! ## Engine (storage.Engine) -/

/-- A logical WAL record as appended by Engine.Put and Engine.Delete
(op 1 with key and value, op 2 with key only). -/
structure WalRec where
  op : Nat
  key : List Nat
  value : List Nat
deriving DecidableEq

/-- Lookup in the Go map backing the memtable, modelled as an
association list. -/
def memLookup : List (List Nat × List Nat) → List Nat → Option (List Nat)
  | [], _ => none
  | (k0, v0) :: rest, k => if k0 = k then some v0 else memLookup rest k

/-- Map assignment memTable[key] = value. -/
def memInsert : List (List Nat × List Nat) → List Nat → List Nat →
    List (List Nat × List Nat)
  | [], k, v => [(k, v)]
  | (k0, v0) :: rest, k, v =>
    if k0 = k then (k, v) :: rest else (k0, v0) :: memInsert rest k v

/-- Map deletion delete(memTable, key). -/
def memRemove : List (List Nat × List Nat) → List Nat →
    List (List Nat × List Nat)
  | [], _ => []
  | (k0, v0) :: rest, k =>
    if k0 = k then rest else (k0, v0) :: memRemove rest k

/-- Actual number of key plus value bytes held in the memtable, the
quantity the specification says the size counter equals. -/
def trueMemBytes (m : List (List Nat × List Nat)) : Int :=
  (m.map (fun kv => (kv.1.length : Int) + kv.2.length)).sum

/-- Engine state: memtable, its size counter, the WAL as the list of
logical records appended so far, the LSM levels, and the closed flag. -/
structure EngineState where
  mem : List (List Nat × List Nat)
  memSize : Int
  wal : List WalRec
  levels : List (List BlockM)
  closed : Bool
deriving DecidableEq

/-- Engine.Put: closed check, WAL append, map assignment, and the size
update memTableSize += len(key) + len(value) - len(old value).  There is
no validation of the key. -/
def enginePut (s : EngineState) (key value : List Nat) : Except String EngineState :=
  if s.closed then Except.error "engine is closed"
  else
    let oldSize : Int := match memLookup s.mem key with
      | some old => old.length
      | none => 0
    Except.ok { s with
      wal := s.wal ++ [⟨1, key, value⟩]
      mem := memInsert s.mem key value
      memSize := s.memSize + key.length + value.length - oldSize }

/-- Engine.Delete: closed check, WAL append, map deletion, and the size
update memTableSize -= len(old value). -/
def engineDelete (s : EngineState) (key : List Nat) : Except String EngineState :=
  if s.closed then Except.error "engine is closed"
  else
    let oldSize : Int := match memLookup s.mem key with
      | some old => old.length
      | none => 0
    Except.ok { s with
      wal := s.wal ++ [⟨2, key, []⟩]
      mem := memRemove s.mem key
      memSize := s.memSize - oldSize }

/-- Engine.Get: closed check, memtable probe, then the LSM read whose
result, error included, is returned as is. -/
def engineGet (s : EngineState) (key : List Nat) : Except String (List Nat) :=
  if s.closed then Except.error "engine is closed"
  else
    match memLookup s.mem key with
    | some v => Except.ok v
    | none => lsmReadModel s.levels key

/-- The per-record callback Engine.recover passes to ReplayFrom: a Put
inserts and adds len(key) + len(value) to the size counter with no old
value subtracted, a Delete removes the key and leaves the counter
untouched. -/
def recoverApply (s : EngineState) (e : WALEntry) : EngineState :=
  if e.opType = 1 then
    { s with mem := memInsert s.mem e.key e.value
             memSize := s.memSize + e.key.length + e.value.length }
  else if e.opType = 2 then
    { s with mem := memRemove s.mem e.key }
  else s

/-- Engine.flush: swap the memtable out, turn every entry into a block
pair, and have LSMTree.Write finalize and append the block to level 0.
No emptiness check is made anywhere on the path. -/
def flushModel (path : List Nat) (createdAt : Nat) (s : EngineState) : EngineState :=
  let pairs := s.mem.map (fun kv => KeyValuePair.mk kv.1 kv.2)
  let blk : BlockM :=
    { path := path
      size := (blockFileBytes createdAt pairs).length
      minKey := blockMinKey pairs
      maxKey := blockMaxKey pairs
      createdAt := createdAt
      records := sortPairs pairs }
  { s with
    mem := []
    memSize := 0
    levels := match s.levels with
      | [] => [[blk]]
      | l0 :: rest => (l0 ++ [blk]) :: rest }

/-- Outcome of Engine.Close.  Close takes the engine write lock and, when
the engine was not yet closed, sets the closed flag and calls
createCheckpoint, which immediately attempts to take the read side of the
same lock on the same goroutine; Go sync.RWMutex is not reentrant, so the
call blocks forever.  The deterministic self-deadlock is modelled as an
explicit outcome carrying the state at the moment of blocking. -/
inductive CloseResult where
  | finished (s : EngineState)
  | deadlock (s : EngineState)
deriving DecidableEq

/-- Engine.Close: an already-closed engine returns immediately; otherwise
the closed flag is set and the goroutine self-deadlocks inside
createCheckpoint before any checkpoint write or flush happens. -/
def closeModel (s : EngineState) : CloseResult :=
  if s.closed then CloseResult.finished s
  else CloseResult.deadlock { s with closed := true }

/-- Seven empty levels, the state of a freshly created LSM tree. -/
def emptyLevels : List (List BlockM) := [[], [], [], [], [], [], []]

/-- The state of a freshly opened engine over an empty directory. -/
def freshEngine : EngineState :=
  { mem := [], memSize := 0, wal := [], levels := emptyLevels, closed := false }

/-- Decidable equality of Except results, used to evaluate the models on
concrete inputs. -/
instance {ε α : Type} [DecidableEq ε] [DecidableEq α] : DecidableEq (Except ε α) := fun a b =>
  match a, b with
  | Except.error x, Except.error y =>
    match decEq x y with
    | isTrue h => isTrue (by rw [h])
    | isFalse h => isFalse (by intro hc; cases hc; exact h rfl)
  | Except.error _, Except.ok _ => isFalse (by intro hc; cases hc)
  | Except.ok _, Except.error _ => isFalse (by intro hc; cases hc)
  | Except.ok x, Except.ok y =>
    match decEq x y with
    | isTrue h => isTrue (by rw [h])
    | isFalse h => isFalse (by intro hc; cases hc; exact h rfl)

/-- Order of WAL files by filename timestamp, used for replay order. -/
def fileLe (a b : WalFileM) : Prop := a.ts ≤ b.ts

instance : DecidableRel fileLe := fun a b => by unfold fileLe; infer_instance

/-- The directory entry of a structured WAL file: filename timestamp and
encoded contents. -/
def walFileEnc (f : WalFileM) : Nat × List Nat := (f.ts, walFileBytes f.ents)

/-! ## Basic byte-level lemmas -/

theorem le32_length (n : Nat) : (le32 n).length = 4 := rfl

theorem le64_length (n : Nat) : (le64 n).length = 8 := rfl

theorem readLE4_le32 (n : Nat) (t : List Nat) (h : n < 4294967296) :
    readLE 4 (le32 n ++ t) = n := by
  simp only [le32, List.cons_append, List.nil_append, readLE]
  omega

theorem readLE8_le64 (n : Nat) (t : List Nat) (h : n < 18446744073709551616) :
    readLE 8 (le64 n ++ t) = n := by
  simp only [le64, le32, List.cons_append, List.nil_append, List.append_assoc, readLE]
  omega

theorem le32_mem_lt (n : Nat) : ∀ b ∈ le32 n, b < 256 := by
  simp only [le32, List.mem_cons, List.not_mem_nil, or_false]
  rintro b (rfl | rfl | rfl | rfl) <;> omega

theorem le64_mem_lt (n : Nat) : ∀ b ∈ le64 n, b < 256 := by
  simp only [le64, List.mem_append]
  rintro b (h | h) <;> exact le32_mem_lt _ b h

/-! ## CRC32C range -/

theorem crcStepBit_lt {c : Nat} (h : c < 4294967296) : crcStepBit c < 4294967296 := by
  unfold crcStepBit crcPoly
  split
  · have h1 : c / 2 < 2 ^ 32 := by omega
    have h2 : (0x82F63B78 : Nat) < 2 ^ 32 := by norm_num
    have := Nat.xor_lt_two_pow h1 h2
    simpa using this
  · omega

theorem crcBits_lt (k : Nat) {c : Nat} (h : c < 4294967296) :
    crcBits k c < 4294967296 := by
  induction k generalizing c with
  | zero => simpa [crcBits] using h
  | succ k ih => exact ih (crcStepBit_lt h)

theorem crcByte_lt {c b : Nat} (hc : c < 4294967296) (hb : b < 256) :
    crcBits 8 (c ^^^ b) < 4294967296 := by
  apply crcBits_lt
  have h1 : c < 2 ^ 32 := by omega
  have h2 : b < 2 ^ 32 := by omega
  have := Nat.xor_lt_two_pow h1 h2
  simpa using this

theorem crc32c_lt {l : List Nat} (h : ∀ b ∈ l, b < 256) : crc32c l < 4294967296 := by
  unfold crc32c
  have hfold : l.foldl (fun c b => crcBits 8 (c ^^^ b)) 0xFFFFFFFF < 4294967296 := by
    have general : ∀ (l' : List Nat) (c : Nat), (∀ b ∈ l', b < 256) → c < 4294967296 →
        l'.foldl (fun c b => crcBits 8 (c ^^^ b)) c < 4294967296 := by
      intro l'
      induction l' with
      | nil => intro c _ hc; simpa using hc
      | cons x xs ih =>
        intro c hb hc
        simp only [List.foldl_cons]
        exact ih _ (fun b hbmem => hb b (List.mem_cons_of_mem _ hbmem))
          (crcByte_lt hc (hb x (List.mem_cons_self _ _)))
    exact general l 0xFFFFFFFF h (by norm_num)
  have h2 : (0xFFFFFFFF : Nat) < 2 ^ 32 := by norm_num
  have h1 : l.foldl (fun c b => crcBits 8 (c ^^^ b)) 0xFFFFFFFF < 2 ^ 32 := by
    omega
  have := Nat.xor_lt_two_pow h1 h2
  omega

/-! ## Shape of a well-formed WAL payload -/

theorem walPayload_eq (e : WALEntry) (h : WFEntry e) :
    walPayload e = le64 e.timestamp ++ [e.opType] ++ le32 e.key.length ++ e.key ++
      (le32 e.value.length ++ e.value) := by
  unfold walPayload
  rcases h.2.2.2.2.2 with h1 | h1
  · rw [if_pos h1]
  · by_cases h2 : e.opType = 1
    · rw [if_pos h2]
    · rw [if_neg h2, h1]
      simp

theorem walPayload_length (e : WALEntry) (h : WFEntry e) :
    (walPayload e).length = 17 + e.key.length + e.value.length := by
  rw [walPayload_eq e h]
  simp only [List.length_append, le64_length, le32_length, List.length_cons,
    List.length_nil]
  omega

theorem walPayload_mem_lt (e : WALEntry) (h : WFEntry e) :
    ∀ b ∈ walPayload e, b < 256 := by
  rw [walPayload_eq e h]
  intro b hb
  simp only [List.mem_append, List.mem_cons, List.not_mem_nil, or_false] at hb
  rcases hb with ((((hb | hb) | hb) | hb) | hb)
  · exact le64_mem_lt _ b hb
  · exact hb ▸ h.2.1
  · exact le32_mem_lt _ b hb
  · exact h.2.2.2.1 b hb
  · rcases hb with hb | hb
    · exact le32_mem_lt _ b hb
    · exact h.2.2.2.2.1 b hb

/-! ## Parsing a well-formed payload recovers the entry -/

theorem drop8_walPayload (e : WALEntry) (h : WFEntry e) :
    (walPayload e).drop 8 =
      [e.opType] ++ (le32 e.key.length ++ (e.key ++ (le32 e.value.length ++ e.value))) := by
  rw [walPayload_eq e h, List.append_assoc, List.append_assoc, List.append_assoc]
  have := List.drop_left (le64 e.timestamp)
    ([e.opType] ++ (le32 e.key.length ++ (e.key ++ (le32 e.value.length ++ e.value))))
  rwa [le64_length] at this

theorem drop9_walPayload (e : WALEntry) (h : WFEntry e) :
    (walPayload e).drop 9 =
      le32 e.key.length ++ (e.key ++ (le32 e.value.length ++ e.value)) := by
  have h1 := List.drop_drop 1 8 (walPayload e)
  rw [show (8 + 1 : Nat) = 9 from rfl] at h1
  rw [← h1, drop8_walPayload e h]
  exact List.drop_left [e.opType] _

theorem drop13_walPayload (e : WALEntry) (h : WFEntry e) :
    (walPayload e).drop 13 = e.key ++ (le32 e.value.length ++ e.value) := by
  have h1 := List.drop_drop 4 9 (walPayload e)
  rw [show (9 + 4 : Nat) = 13 from rfl] at h1
  rw [← h1, drop9_walPayload e h]
  have := List.drop_left (le32 e.key.length) (e.key ++ (le32 e.value.length ++ e.value))
  rwa [le32_length] at this

theorem drop13k_walPayload (e : WALEntry) (h : WFEntry e) :
    (walPayload e).drop (13 + e.key.length) = le32 e.value.length ++ e.value := by
  have h1 := List.drop_drop e.key.length 13 (walPayload e)
  rw [← h1, drop13_walPayload e h]
  exact List.drop_left e.key _

theorem drop17k_walPayload (e : WALEntry) (h : WFEntry e) :
    (walPayload e).drop (17 + e.key.length) = e.value := by
  have h1 := List.drop_drop 4 (13 + e.key.length) (walPayload e)
  have h2 : 13 + e.key.length + 4 = 17 + e.key.length := by omega
  rw [h2] at h1
  rw [← h1, drop13k_walPayload e h]
  have := List.drop_left (le32 e.value.length) e.value
  rwa [le32_length] at this

theorem readTs_walPayload (e : WALEntry) (h : WFEntry e) :
    readLE 8 (walPayload e) = e.timestamp := by
  rw [walPayload_eq e h, List.append_assoc, List.append_assoc, List.append_assoc]
  exact readLE8_le64 _ _ (by have := h.1; omega)

theorem parseEntryData_walPayload (e : WALEntry) (h : WFEntry e) :
    parseEntryData (walPayload e) = Except.ok e := by
  have hlen := walPayload_length e h
  have hts : readLE 8 (walPayload e) = e.timestamp := readTs_walPayload e h
  have hop : ((walPayload e).drop 8).headD 0 = e.opType := by
    rw [drop8_walPayload e h]; rfl
  have hkl : readLE 4 ((walPayload e).drop 9) = e.key.length := by
    rw [drop9_walPayload e h]
    exact readLE4_le32 _ _ (by have := h.2.2.1; omega)
  have hkey : ((walPayload e).drop 13).take e.key.length = e.key := by
    rw [drop13_walPayload e h]
    exact List.take_left e.key _
  have hvl : readLE 4 ((walPayload e).drop (13 + e.key.length)) = e.value.length := by
    rw [drop13k_walPayload e h]
    exact readLE4_le32 _ _ (by have := h.2.2.1; omega)
  have hval : ((walPayload e).drop (17 + e.key.length)).take e.value.length = e.value := by
    rw [drop17k_walPayload e h]
    exact List.take_length e.value
  simp only [parseEntryData, hts, hkl, hvl, hkey, hlen]
  rw [if_neg (by omega), if_neg (by omega), if_neg (by omega), if_neg (by omega)]
  by_cases hv : 0 < e.value.length
  · rw [if_pos hv, hval, hop]
  · rw [if_neg hv, hop]
    have hnil : e.value = [] := List.eq_nil_of_length_eq_zero (by omega)
    rw [← hnil]

/-! ## The replay loop over read-side well-formed records -/

theorem replayLoop_nil (fuel fromTs : Nat) (acc : List WALEntry) :
    replayLoop (fuel + 1) [] fromTs acc = Except.ok acc := by
  simp [replayLoop]

theorem replayLoop_cons (fuel : Nat) (e : WALEntry) (h : WFEntry e) (tail : List Nat)
    (fromTs : Nat) (acc : List WALEntry) :
    replayLoop (fuel + 1) (walRecordBytesReadSide e ++ tail) fromTs acc =
      replayLoop fuel tail fromTs
        (if fromTs < e.timestamp then acc ++ [e] else acc) := by
  have hby : walRecordBytesReadSide e ++ tail =
      le32 (crc32c (walPayload e)) ++
        (le32 (walPayload e).length ++ (walPayload e ++ tail)) := by
    simp [walRecordBytesReadSide, List.append_assoc]
  have hC : crc32c (walPayload e) < 4294967296 := crc32c_lt (walPayload_mem_lt e h)
  have hNlt : (walPayload e).length < 4294967296 := by
    rw [walPayload_length e h]; have := h.2.2.1; omega
  have hplen : 17 ≤ (walPayload e).length := by rw [walPayload_length e h]; omega
  have hlen : (walRecordBytesReadSide e ++ tail).length =
      8 + (walPayload e).length + tail.length := by
    rw [hby]; simp [le32_length]; omega
  have hne : walRecordBytesReadSide e ++ tail ≠ [] := by
    apply List.ne_nil_of_length_pos
    omega
  have hdrop4 : (walRecordBytesReadSide e ++ tail).drop 4 =
      le32 (walPayload e).length ++ (walPayload e ++ tail) := by
    rw [hby]
    have := List.drop_left (le32 (crc32c (walPayload e)))
      (le32 (walPayload e).length ++ (walPayload e ++ tail))
    rwa [le32_length] at this
  have hread4 : readLE 4 (walRecordBytesReadSide e ++ tail) = crc32c (walPayload e) := by
    rw [hby]; exact readLE4_le32 _ _ hC
  have hread4b : readLE 4 ((walRecordBytesReadSide e ++ tail).drop 4) =
      (walPayload e).length := by
    rw [hdrop4]; exact readLE4_le32 _ _ hNlt
  have hdrop8 : (walRecordBytesReadSide e ++ tail).drop 8 = walPayload e ++ tail := by
    have h1 := List.drop_drop 4 4 (walRecordBytesReadSide e ++ tail)
    rw [show (4 + 4 : Nat) = 8 from rfl] at h1
    rw [← h1, hdrop4]
    have := List.drop_left (le32 (walPayload e).length) (walPayload e ++ tail)
    rwa [le32_length] at this
  have hdata : ((walRecordBytesReadSide e ++ tail).drop 8).take
      (readLE 4 ((walRecordBytesReadSide e ++ tail).drop 4)) = walPayload e := by
    rw [hdrop8, hread4b]; exact List.take_left _ _
  have hdropn : ((walRecordBytesReadSide e ++ tail).drop 8).drop
      (readLE 4 ((walRecordBytesReadSide e ++ tail).drop 4)) = tail := by
    rw [hdrop8, hread4b]; exact List.drop_left _ _
  have hrest : ¬ (((walRecordBytesReadSide e ++ tail).drop 8).length <
      readLE 4 ((walRecordBytesReadSide e ++ tail).drop 4)) := by
    rw [hdrop8, hread4b]; simp
  simp only [replayLoop]
  rw [if_neg hne, if_neg (by omega : ¬ ((walRecordBytesReadSide e ++ tail).length < 8)),
    if_neg hrest, hdata, hread4, if_pos rfl,
    if_neg (by rw [walPayload_length e h]; omega : ¬ ((walPayload e).length < 8)),
    readTs_walPayload e h]
  by_cases hskip : e.timestamp ≤ fromTs
  · rw [if_pos hskip, hdropn, if_neg (by omega)]
  · rw [if_neg hskip, parseEntryData_walPayload e h, hdropn, if_pos (by omega)]
    rfl

theorem replayLoop_encode_prefix (fromTs : Nat) :
    ∀ (es : List WALEntry) (tail : List Nat) (acc : List WALEntry) (fuel : Nat),
      (∀ e ∈ es, WFEntry e) → (walFileBytes es).length + tail.length < fuel →
      ∃ fuel2, tail.length < fuel2 ∧
        replayLoop fuel (walFileBytes es ++ tail) fromTs acc =
          replayLoop fuel2 tail fromTs
            (acc ++ es.filter (fun e => fromTs < e.timestamp)) := by
  intro es
  induction es with
  | nil =>
    intro tail acc fuel _ hfuel
    refine ⟨fuel, by simpa [walFileBytes] using hfuel, ?_⟩
    simp [walFileBytes]
  | cons e es ih =>
    intro tail acc fuel hwf hfuel
    have hrec : walFileBytes (e :: es) = walRecordBytesReadSide e ++ walFileBytes es := by
      simp [walFileBytes]
    have hreclen : 1 ≤ (walRecordBytesReadSide e).length := by
      simp [walRecordBytesReadSide, le32_length]
      omega
    rw [hrec] at hfuel ⊢
    cases fuel with
    | zero =>
      exfalso
      simp only [List.length_append] at hfuel
      omega
    | succ fuel =>
      rw [List.append_assoc, replayLoop_cons fuel e (hwf e (List.mem_cons_self _ _)) _ fromTs acc]
      have hbound : (walFileBytes es).length + tail.length < fuel := by
        simp only [List.length_append] at hfuel
        omega
      obtain ⟨fuel2, hf2, heq⟩ := ih tail
        (if fromTs < e.timestamp then acc ++ [e] else acc) fuel
        (fun x hx => hwf x (List.mem_cons_of_mem _ hx)) hbound
      refine ⟨fuel2, hf2, ?_⟩
      rw [heq]
      by_cases hts : fromTs < e.timestamp
      · rw [if_pos hts, List.filter_cons]
        simp [hts, List.append_assoc]
      · rw [if_neg hts, List.filter_cons]
        simp [hts]

theorem replayFileBytes_encode (es : List WALEntry) (fromTs : Nat)
    (hwf : ∀ e ∈ es, WFEntry e) :
    replayFileBytes (walFileBytes es) fromTs =
      Except.ok (es.filter (fun e => fromTs < e.timestamp)) := by
  unfold replayFileBytes
  have hfuel : (walFileBytes es).length + ([] : List Nat).length <
      (walFileBytes es).length + 1 := by simp
  obtain ⟨fuel2, hf2, heq⟩ := replayLoop_encode_prefix fromTs es [] [] _ hwf hfuel
  rw [List.append_nil] at heq
  rw [heq]
  cases fuel2 with
  | zero => exact absurd hf2 (by simp)
  | succ fuel2 => rw [replayLoop_nil]; simp

theorem replayLoop_corrupt (fuel : Nat) (c : Nat) (p : List Nat) (fromTs : Nat)
    (acc : List WALEntry) (hc : c < 4294967296) (hplt : p.length < 4294967296)
    (hmis : crc32c p ≠ c) :
    replayLoop (fuel + 1) (le32 c ++ (le32 p.length ++ p)) fromTs acc =
      Except.error "WAL entry corrupted: CRC mismatch" := by
  have hlen : (le32 c ++ (le32 p.length ++ p)).length = 8 + p.length := by
    simp [le32_length]
    omega
  have hne : le32 c ++ (le32 p.length ++ p) ≠ [] := by
    apply List.ne_nil_of_length_pos
    omega
  have hdrop4 : (le32 c ++ (le32 p.length ++ p)).drop 4 = le32 p.length ++ p := by
    have := List.drop_left (le32 c) (le32 p.length ++ p)
    rwa [le32_length] at this
  have hread4 : readLE 4 (le32 c ++ (le32 p.length ++ p)) = c := readLE4_le32 _ _ hc
  have hread4b : readLE 4 ((le32 c ++ (le32 p.length ++ p)).drop 4) = p.length := by
    rw [hdrop4]; exact readLE4_le32 _ _ hplt
  have hdrop8 : (le32 c ++ (le32 p.length ++ p)).drop 8 = p := by
    have h1 := List.drop_drop 4 4 (le32 c ++ (le32 p.length ++ p))
    rw [show (4 + 4 : Nat) = 8 from rfl] at h1
    rw [← h1, hdrop4]
    have := List.drop_left (le32 p.length) p
    rwa [le32_length] at this
  have hdata : ((le32 c ++ (le32 p.length ++ p)).drop 8).take
      (readLE 4 ((le32 c ++ (le32 p.length ++ p)).drop 4)) = p := by
    rw [hdrop8, hread4b]; exact List.take_length p
  simp only [replayLoop]
  rw [if_neg hne, if_neg (by omega : ¬ ((le32 c ++ (le32 p.length ++ p)).length < 8)),
    if_neg (by rw [hdrop8, hread4b]; omega), hdata, hread4, if_neg hmis]

/-! ## ReplayFrom assembly -/

theorem insertionSort_map_walFileEnc (files : List WalFileM) :
    List.insertionSort (fun a b : Nat × List Nat => a.1 ≤ b.1) (files.map walFileEnc) =
      (List.insertionSort fileLe files).map walFileEnc := by
  induction files with
  | nil => simp [List.insertionSort]
  | cons f fs ih =>
    simp only [List.map_cons, List.insertionSort, ih]
    generalize List.insertionSort fileLe fs = sorted
    induction sorted with
    | nil => simp [List.orderedInsert]
    | cons g gs ihg =>
      simp only [List.map_cons, List.orderedInsert]
      by_cases hle : fileLe f g
      · rw [if_pos hle, if_pos (by exact hle)]
        simp
      · rw [if_neg hle, if_neg (by exact hle)]
        simp only [List.map_cons, List.cons.injEq, true_and]
        exact ihg

theorem foldlM_replay_files (fromTs : Nat) :
    ∀ (fs : List WalFileM) (acc : List WALEntry),
      (∀ f ∈ fs, ∀ e ∈ f.ents, WFEntry e) →
      List.foldlM
        (fun acc f => (replayFileBytes f.2 fromTs).map (fun l => acc ++ l)) acc
        (fs.map walFileEnc) =
      Except.ok (acc ++ fs.flatMap (fun f =>
        f.ents.filter (fun e => fromTs < e.timestamp))) := by
  intro fs
  induction fs with
  | nil => intro acc _; simp [List.foldlM_nil]; rfl
  | cons f fs ih =>
    intro acc hwf
    simp only [List.map_cons]
    rw [List.foldlM_cons]
    have hstep : Except.map (fun l => acc ++ l) (replayFileBytes (walFileEnc f).2 fromTs) =
        Except.ok (acc ++ f.ents.filter (fun e => fromTs < e.timestamp)) := by
      show (replayFileBytes (walFileBytes f.ents) fromTs).map (fun l => acc ++ l) = _
      rw [replayFileBytes_encode f.ents fromTs (hwf f (List.mem_cons_self _ _))]
      rfl
    rw [hstep]
    have hbind : ∀ (a : List WALEntry)
        (g : List WALEntry → Except String (List WALEntry)),
        (Except.ok a >>= g) = g a := fun a g => rfl
    rw [hbind]
    rw [ih (acc ++ f.ents.filter (fun e => fromTs < e.timestamp))
      (fun g hg => hwf g (List.mem_cons_of_mem _ hg))]
    simp [List.append_assoc]

/-! ## Lexicographic byte order: totality, transitivity, antisymmetry -/

theorem keyLe_nil (b : List Nat) : keyLe [] b = true := by
  cases b <;> rfl

theorem keyLe_cons_elim {x y : Nat} {xs ys : List Nat}
    (h : keyLe (x :: xs) (y :: ys) = true) :
    x < y ∨ (x = y ∧ keyLe xs ys = true) := by
  simp only [keyLe] at h
  split_ifs at h with h1 h2
  · exact Or.inl h1
  · exact Or.inr ⟨by omega, h⟩

theorem keyLe_cons_of_lt {x y : Nat} (xs ys : List Nat) (h : x < y) :
    keyLe (x :: xs) (y :: ys) = true := by
  simp only [keyLe]
  rw [if_pos h]

theorem keyLe_cons_of_eq {x y : Nat} {xs ys : List Nat} (h : x = y)
    (h2 : keyLe xs ys = true) : keyLe (x :: xs) (y :: ys) = true := by
  subst h
  simp only [keyLe]
  rw [if_neg (by omega), if_neg (by omega)]
  exact h2

theorem keyLt_cons_elim {x y : Nat} {xs ys : List Nat}
    (h : keyLt (x :: xs) (y :: ys) = true) :
    x < y ∨ (x = y ∧ keyLt xs ys = true) := by
  simp only [keyLt] at h
  split_ifs at h with h1 h2
  · exact Or.inl h1
  · exact Or.inr ⟨by omega, h⟩

theorem keyLt_cons_of_lt {x y : Nat} (xs ys : List Nat) (h : x < y) :
    keyLt (x :: xs) (y :: ys) = true := by
  simp only [keyLt]
  rw [if_pos h]

theorem keyLt_cons_of_eq {x y : Nat} {xs ys : List Nat} (h : x = y)
    (h2 : keyLt xs ys = true) : keyLt (x :: xs) (y :: ys) = true := by
  subst h
  simp only [keyLt]
  rw [if_neg (by omega), if_neg (by omega)]
  exact h2

theorem keyLe_total : ∀ a b : List Nat, keyLe a b = true ∨ keyLe b a = true := by
  intro a
  induction a with
  | nil => intro b; exact Or.inl (keyLe_nil b)
  | cons x xs ih =>
    intro b
    cases b with
    | nil => exact Or.inr (keyLe_nil _)
    | cons y ys =>
      rcases Nat.lt_trichotomy x y with h | h | h
      · exact Or.inl (keyLe_cons_of_lt _ _ h)
      · rcases ih ys with h2 | h2
        · exact Or.inl (keyLe_cons_of_eq h h2)
        · exact Or.inr (keyLe_cons_of_eq h.symm h2)
      · exact Or.inr (keyLe_cons_of_lt _ _ h)

theorem keyLe_trans : ∀ a b c : List Nat,
    keyLe a b = true → keyLe b c = true → keyLe a c = true := by
  intro a
  induction a with
  | nil => intro b c _ _; exact keyLe_nil c
  | cons x xs ih =>
    intro b c h1 h2
    cases b with
    | nil => cases h1
    | cons y ys =>
      cases c with
      | nil => cases h2
      | cons z zs =>
        rcases keyLe_cons_elim h1 with hxy | ⟨hxy, hxs⟩ <;>
          rcases keyLe_cons_elim h2 with hyz | ⟨hyz, hys⟩
        · exact keyLe_cons_of_lt _ _ (by omega)
        · exact keyLe_cons_of_lt _ _ (by omega)
        · exact keyLe_cons_of_lt _ _ (by omega)
        · exact keyLe_cons_of_eq (by omega) (ih ys zs hxs hys)

theorem keyLt_asymm : ∀ a b : List Nat,
    keyLt a b = true → keyLt b a = true → False := by
  intro a
  induction a with
  | nil =>
    intro b h1 h2
    cases b with
    | nil => cases h1
    | cons y ys => cases h2
  | cons x xs ih =>
    intro b h1 h2
    cases b with
    | nil => cases h1
    | cons y ys =>
      rcases keyLt_cons_elim h1 with hxy | ⟨hxy, hxs⟩ <;>
        rcases keyLt_cons_elim h2 with hyx | ⟨hyx, hys⟩
      · omega
      · omega
      · omega
      · exact ih ys hxs hys

theorem keyLt_of_keyLe_of_ne : ∀ a b : List Nat,
    keyLe a b = true → a ≠ b → keyLt a b = true := by
  intro a
  induction a with
  | nil =>
    intro b _ hne
    cases b with
    | nil => exact absurd rfl hne
    | cons y ys => rfl
  | cons x xs ih =>
    intro b h1 hne
    cases b with
    | nil => cases h1
    | cons y ys =>
      rcases keyLe_cons_elim h1 with hxy | ⟨hxy, hxs⟩
      · exact keyLt_cons_of_lt _ _ hxy
      · subst hxy
        have hne2 : xs ≠ ys := fun hc => hne (by rw [hc])
        exact keyLt_cons_of_eq rfl (ih ys hxs hne2)

/-! ## Finalize sorting is determined by the pair multiset when keys are
distinct -/

theorem sortPairs_sorted (ps : List KeyValuePair) :
    List.Sorted pairLe (sortPairs ps) :=
  @List.sorted_insertionSort _ pairLe inferInstance
    ⟨fun p q => keyLe_total p.key q.key⟩
    ⟨fun p q r h1 h2 => keyLe_trans p.key q.key r.key h1 h2⟩ ps

theorem sortPairs_perm (ps : List KeyValuePair) : (sortPairs ps).Perm ps :=
  List.perm_insertionSort pairLe ps

theorem sortPairs_sorted_strict (ps : List KeyValuePair)
    (hnd : (ps.map (fun p => p.key)).Nodup) :
    List.Sorted pairLt (sortPairs ps) := by
  have hperm := sortPairs_perm ps
  have hnd2 : ((sortPairs ps).map (fun p => p.key)).Nodup :=
    (List.Perm.map (fun p => p.key) hperm.symm).nodup hnd
  have hpne : (sortPairs ps).Pairwise (fun p q : KeyValuePair => p.key ≠ q.key) := by
    rw [List.Nodup, List.pairwise_map] at hnd2
    exact hnd2
  have hple : (sortPairs ps).Pairwise pairLe := sortPairs_sorted ps
  have := hple.and hpne
  exact this.imp (fun h => by
    rcases h with ⟨hle, hne⟩
    exact keyLt_of_keyLe_of_ne _ _ hle (fun hc => hne (by exact hc)))

theorem sortPairs_eq_of_perm (ps qs : List KeyValuePair) (hperm : ps.Perm qs)
    (hnd : (ps.map (fun p => p.key)).Nodup) :
    sortPairs ps = sortPairs qs := by
  have hndq : (qs.map (fun p => p.key)).Nodup :=
    (List.Perm.map (fun p => p.key) hperm).nodup hnd
  have hpp : (sortPairs ps).Perm (sortPairs qs) :=
    ((sortPairs_perm ps).trans hperm).trans (sortPairs_perm qs).symm
  exact @List.eq_of_perm_of_sorted _ pairLt
    ⟨fun p q h1 h2 => (keyLt_asymm p.key q.key h1 h2).elim⟩ _ _ hpp
    (sortPairs_sorted_strict ps hnd) (sortPairs_sorted_strict qs hndq)

/-! ## Memtable and LSM lookup helpers -/

theorem memLookup_memInsert_self (m : List (List Nat × List Nat))
    (k v : List Nat) : memLookup (memInsert m k v) k = some v := by
  induction m with
  | nil => simp [memInsert, memLookup]
  | cons kv rest ih =>
    by_cases h : kv.1 = k
    · simp [memInsert, h, memLookup]
    · simp [memInsert, h, memLookup, ih]

theorem blockGet_not_found (records : List KeyValuePair) (key : List Nat)
    (h : ∀ p ∈ records, p.key ≠ key) :
    blockGet records key = Except.error "key not found" := by
  unfold blockGet
  have : records.find? (fun p => p.key == key) = none := by
    rw [List.find?_eq_none]
    intro p hp
    simpa using h p hp
  rw [this]

theorem findLoop_some (fuel : Nat) (blocks : List BlockM) (key : List Nat)
    (left right : Int) (i : Nat)
    (h : findLoop fuel blocks key left right = some i) :
    ∃ b, blocks.get? i = some b := by
  induction fuel generalizing left right with
  | zero => cases h
  | succ fuel ih =>
    unfold findLoop at h
    by_cases h1 : left > right
    · rw [if_pos h1] at h; cases h
    · rw [if_neg h1] at h
      cases hget : blocks.get? ((left + right) / 2).toNat with
      | none => simp only [hget] at h; cases h
      | some b =>
        simp only [hget] at h
        split_ifs at h with h2 h3
        · exact ih _ _ h
        · exact ih _ _ h
        · exact ⟨b, (Option.some.inj h) ▸ hget⟩

theorem readLevel_none (blocks : List BlockM) (key : List Nat)
    (h : ∀ b ∈ blocks, ∀ p ∈ b.records, p.key ≠ key) :
    readLevel blocks key = none := by
  unfold readLevel
  cases hfind : findBlockIdx blocks key with
  | none => simp only [hfind]
  | some i =>
    obtain ⟨b, hb⟩ := findLoop_some _ _ _ _ _ _ hfind
    simp only [hfind, hb, blockGet_not_found b.records key (h b (List.get?_mem hb))]
    rfl

theorem readL0_none (blocks : List BlockM) (key : List Nat)
    (h : ∀ b ∈ blocks, ∀ p ∈ b.records, p.key ≠ key) :
    readL0 blocks key = none := by
  unfold readL0
  rw [List.findSome?_eq_none_iff]
  intro b hb
  have hbm : b ∈ blocks := List.mem_reverse.mp hb
  split_ifs with h1
  · rw [blockGet_not_found b.records key (h b hbm)]
    rfl
  · rfl

/-! ## Claim theorems -/

/-- Claim C1 (code bug): the WAL append/replay round trip fails for every
record, because append stores CRC32C over the 4-byte size field plus the
payload while replay recomputes CRC32C over the payload alone.  Replaying
the exact bytes append writes for the single record Put("a", "1") at
timestamp 1 is rejected as corrupt instead of invoking the callback
once. -/
theorem c1_crc_divergence :
    replayFileBytes (walAppendRecordBytes ⟨1, 1, [97], [49]⟩) 0 =
      Except.error "WAL entry corrupted: CRC mismatch" := by
  decide

/-- Claim C2 (counterexample): a record with timestamp 20 sitting in a
WAL file whose filename timestamp 5 is below the cutoff 10 is never
applied, because ReplayFrom drops the whole file; the claim requires the
record to be applied since 20 > 10. -/
theorem c2_counterexample :
    replayFromModel [(5, walFileBytes [⟨20, 1, [107], [118]⟩])] 10 =
      Except.ok [] := by
  decide

/-- Claim C2 (amended): replay_from first drops every WAL file whose
filename timestamp is strictly below from_ts; the surviving files are
replayed in ascending filename-timestamp order, and within them exactly
the records with timestamp > from_ts are applied, in order. -/
theorem c2_amended (files : List WalFileM) (fromTs : Nat)
    (hwf : ∀ f ∈ files, ∀ e ∈ f.ents, WFEntry e) :
    replayFromModel (files.map walFileEnc) fromTs =
      Except.ok ((List.insertionSort fileLe
          (files.filter (fun f => fromTs ≤ f.ts))).flatMap
        (fun f => f.ents.filter (fun e => fromTs < e.timestamp))) := by
  simp only [replayFromModel]
  have hfil : (files.map walFileEnc).filter (fun f => fromTs ≤ f.1) =
      (files.filter (fun f => fromTs ≤ f.ts)).map walFileEnc := by
    rw [List.filter_map]
    rfl
  rw [hfil, insertionSort_map_walFileEnc]
  rw [foldlM_replay_files fromTs _ [] (fun f hf => hwf f
    (List.mem_of_mem_filter ((List.perm_insertionSort fileLe _).mem_iff.mp hf)))]
  rw [List.nil_append]

/-- Witness for the amended claim C2 at a concrete input. -/
theorem c2_amended_witness :
    replayFromModel ([⟨15, [⟨20, 1, [107], [118]⟩]⟩].map walFileEnc) 10 =
      Except.ok ((List.insertionSort fileLe
          (([⟨15, [⟨20, 1, [107], [118]⟩]⟩] : List WalFileM).filter
            (fun f => 10 ≤ f.ts))).flatMap
        (fun f => f.ents.filter (fun e => 10 < e.timestamp))) :=
  c2_amended [⟨15, [⟨20, 1, [107], [118]⟩]⟩] 10 (by decide)

/-- Claim C3 (counterexample): a file holding one valid record followed
by a final record whose stored CRC (0) does not match its payload is not
treated as a torn tail: replay aborts with the corruption error instead
of returning success with the valid record applied. -/
theorem c3_counterexample :
    replayFileBytes (walFileBytes [⟨1, 1, [97], [49]⟩] ++
        (le32 0 ++ (le32 (walPayload ⟨2, 1, [98], [50]⟩).length ++
          walPayload ⟨2, 1, [98], [50]⟩))) 0 =
      Except.error "WAL entry corrupted: CRC mismatch" := by
  decide

/-- Claim C3 (amended): any CRC mismatch aborts replay with the
corruption error, whether it occurs mid-file or on the very last record
of a file; no torn-tail tolerance exists anywhere in replayFileFrom. -/
theorem c3_amended (es : List WALEntry) (fromTs c : Nat) (p : List Nat)
    (hwf : ∀ e ∈ es, WFEntry e) (hc : c < 4294967296)
    (hplt : p.length < 4294967296) (hmis : crc32c p ≠ c) :
    replayFileBytes (walFileBytes es ++ (le32 c ++ (le32 p.length ++ p))) fromTs =
      Except.error "WAL entry corrupted: CRC mismatch" := by
  unfold replayFileBytes
  have hfuel : (walFileBytes es).length + (le32 c ++ (le32 p.length ++ p)).length <
      (walFileBytes es ++ (le32 c ++ (le32 p.length ++ p))).length + 1 := by
    simp
  obtain ⟨fuel2, hf2, heq⟩ :=
    replayLoop_encode_prefix fromTs es (le32 c ++ (le32 p.length ++ p)) [] _ hwf hfuel
  rw [heq]
  cases fuel2 with
  | zero => exact absurd hf2 (by omega)
  | succ fuel2 => exact replayLoop_corrupt fuel2 c p fromTs _ hc hplt hmis

/-- Witness for the amended claim C3 at a concrete input. -/
theorem c3_amended_witness :
    replayFileBytes (walFileBytes [⟨1, 1, [97], [49]⟩] ++
        (le32 0 ++ (le32 (walPayload ⟨2, 1, [98], [50]⟩).length ++
          walPayload ⟨2, 1, [98], [50]⟩))) 0 =
      Except.error "WAL entry corrupted: CRC mismatch" :=
  c3_amended [⟨1, 1, [97], [49]⟩] 0 0 (walPayload ⟨2, 1, [98], [50]⟩)
    (by decide) (by decide) (by decide) (by decide)

/-- Claim C4 (code bug): the compaction worker writes nothing at all into
the output block file it creates (it only counts bytes), yet afterwards
deletes every source block file, so every key stored in the source blocks
becomes unreadable.  Shown in general (the output bytes are always empty)
and at the concrete one-block task over the block holding keys in the
range a..a: the source path is deleted and 0 record bytes exist in the
output. -/
theorem c4_compact_divergence :
    (∀ blocks : List BlockInfoM, (compactModel blocks).outputBytes = []) ∧
    compactModel [⟨[100, 97, 116, 97], 10, [97], [97]⟩] =
      ⟨[], [[100, 97, 116, 97]], 10, 18⟩ := by
  exact ⟨fun _ => rfl, by decide⟩

/-- Claim C5 (counterexample): reading an absent key from a freshly
opened engine yields the error "key not found" at the Engine boundary,
not a successful absence result; the internal sentinel is propagated, not
translated. -/
theorem c5_counterexample :
    engineGet freshEngine [97] = Except.error "key not found" := by
  decide

/-- Claim C5 (amended): when a key is absent from the memtable and from
the records of every block of every level, Engine.Get returns the LSM
error "key not found" to the caller; absence surfaces as an error, not as
a None result. -/
theorem c5_amended (s : EngineState) (key : List Nat) (hopen : s.closed = false)
    (hmem : memLookup s.mem key = none)
    (hblocks : ∀ lv ∈ s.levels, ∀ b ∈ lv, ∀ p ∈ b.records, p.key ≠ key) :
    engineGet s key = Except.error "key not found" := by
  unfold engineGet
  rw [if_neg (by simp [hopen])]
  simp only [hmem]
  cases hl : s.levels with
  | nil => rfl
  | cons l0 rest =>
    have h0 : readL0 l0 key = none :=
      readL0_none l0 key (hblocks l0 (hl ▸ List.mem_cons_self _ _))
    have hrest : rest.findSome? (fun lv => readLevel lv key) = none := by
      rw [List.findSome?_eq_none_iff]
      intro lv hlv
      exact readLevel_none lv key (hblocks lv (hl ▸ List.mem_cons_of_mem _ hlv))
    simp only [lsmReadModel, h0, hrest]

/-- Witness for the amended claim C5 at a concrete input: a key that is
in no memtable entry and no block record. -/
theorem c5_amended_witness :
    engineGet
      { mem := [([99], [1])], memSize := 2, wal := [],
        levels := [[], [⟨[112], 5, [97], [97], 7, [⟨[97], [49]⟩]⟩]],
        closed := false } [98] =
      Except.error "key not found" :=
  c5_amended
    { mem := [([99], [1])], memSize := 2, wal := [],
      levels := [[], [⟨[112], 5, [97], [97], 7, [⟨[97], [49]⟩]⟩]],
      closed := false } [98] rfl (by decide) (by decide)

/-- Claim C6 (counterexample): Engine.Put with an empty key succeeds,
appends a Put record to the WAL, stores the empty key in the memtable and
adds the value length to the size counter — it does not fail with an
invalid-argument error and it does not leave the state unchanged. -/
theorem c6_counterexample :
    enginePut freshEngine [] [118] =
      Except.ok { mem := [([], [118])], memSize := 1, wal := [⟨1, [], [118]⟩],
                  levels := emptyLevels, closed := false } := by
  decide

/-- Claim C6 (amended): Engine.Put performs no key validation at all: on
an open engine an empty key is accepted like any other key — the call
succeeds, one Put record is appended to the WAL, the memtable maps the
empty key to the value, and the size counter moves by len(value) minus
the length of any overwritten value. -/
theorem c6_amended (s : EngineState) (v : List Nat) (hopen : s.closed = false) :
    ∃ t, enginePut s [] v = Except.ok t ∧
      t.wal = s.wal ++ [⟨1, [], v⟩] ∧
      memLookup t.mem [] = some v ∧
      t.memSize = s.memSize + v.length -
        (match memLookup s.mem [] with
          | some old => (old.length : Int)
          | none => 0) := by
  simp only [enginePut]
  rw [if_neg (by simp [hopen])]
  refine ⟨_, rfl, rfl, memLookup_memInsert_self _ _ _, ?_⟩
  simp

/-- Witness for the amended claim C6 at a concrete input. -/
theorem c6_amended_witness :
    ∃ t, enginePut freshEngine [] [118] = Except.ok t ∧
      t.wal = freshEngine.wal ++ [⟨1, [], [118]⟩] ∧
      memLookup t.mem [] = some [118] ∧
      t.memSize = freshEngine.memSize + ([118] : List Nat).length -
        (match memLookup freshEngine.mem [] with
          | some old => (old.length : Int)
          | none => 0) :=
  c6_amended freshEngine [118] rfl

/-- Claim C7 (code bug): the memtable size counter does not equal the sum
of key and value byte lengths.  After Put("k", "v") then Delete("k") the
memtable is empty but the counter is 1, because Delete subtracts only the
old value length and keeps the key bytes; and replaying the same two
records through the recovery callback leaves the counter at 2, because
the recovery delete does not touch the counter at all. -/
theorem c7_size_divergence :
    ((enginePut freshEngine [107] [118]).bind (fun s => engineDelete s [107]) =
      Except.ok { mem := [], memSize := 1,
                  wal := [⟨1, [107], [118]⟩, ⟨2, [107], []⟩],
                  levels := emptyLevels, closed := false }) ∧
    trueMemBytes [] = 0 ∧
    (recoverApply (recoverApply freshEngine ⟨1, 1, [107], [118]⟩)
        ⟨2, 2, [107], []⟩).mem = [] ∧
    (recoverApply (recoverApply freshEngine ⟨1, 1, [107], [118]⟩)
        ⟨2, 2, [107], []⟩).memSize = 2 := by
  exact ⟨by decide, rfl, by decide, by decide⟩

/-- Claim C8 (code bug): the LSM recovery scan populates min_key and
max_key of a recovered block with the bytes of the block file name, never
reading the block header.  For a file named 1_ab.blk holding a block
whose stats are min_key = a and max_key = c, the recovered range equals
the file name on both ends, and the key b that lies inside the true range
is not inside the recovered range, so the block is never searched for
it. -/
theorem c8_load_divergence :
    (loadBlockEntryModel [49, 95, 97, 98] 90).minKey = [49, 95, 97, 98] ∧
    (loadBlockEntryModel [49, 95, 97, 98] 90).maxKey = [49, 95, 97, 98] ∧
    blockMinKey [⟨[97], [49]⟩, ⟨[99], [51]⟩] = [97] ∧
    blockMaxKey [⟨[97], [49]⟩, ⟨[99], [51]⟩] = [99] ∧
    keyInRange [98] (blockMinKey [⟨[97], [49]⟩, ⟨[99], [51]⟩])
      (blockMaxKey [⟨[97], [49]⟩, ⟨[99], [51]⟩]) = true ∧
    keyInRange [98] (loadBlockEntryModel [49, 95, 97, 98] 90).minKey
      (loadBlockEntryModel [49, 95, 97, 98] 90).maxKey = false := by
  decide

/-- Claim C9 (confirmed): finalizing the same set of pairs with distinct
keys in any insertion order produces the same payload bytes and the same
block id, and the block id of a finalized block is the SHA-256 digest of
the payload as written. -/
theorem c9_block_determinism (ps qs : List KeyValuePair) (hperm : ps.Perm qs)
    (hnd : (ps.map (fun p => p.key)).Nodup) :
    finalizePayload ps = finalizePayload qs ∧
    finalizeBlockID ps = finalizeBlockID qs ∧
    finalizeBlockID ps = sha256Bytes (finalizePayload ps) := by
  have hsort := sortPairs_eq_of_perm ps qs hperm hnd
  have hpl : finalizePayload ps = finalizePayload qs := by
    unfold finalizePayload
    rw [hsort]
  refine ⟨hpl, ?_, rfl⟩
  unfold finalizeBlockID
  rw [hpl]

/-- Witness for claim C9 at a concrete input: the same two pairs in the
two insertion orders. -/
theorem c9_block_determinism_witness :
    finalizePayload [⟨[98], [50]⟩, ⟨[97], [49]⟩] =
      finalizePayload [⟨[97], [49]⟩, ⟨[98], [50]⟩] ∧
    finalizeBlockID [⟨[98], [50]⟩, ⟨[97], [49]⟩] =
      finalizeBlockID [⟨[97], [49]⟩, ⟨[98], [50]⟩] ∧
    finalizeBlockID [⟨[98], [50]⟩, ⟨[97], [49]⟩] =
      sha256Bytes (finalizePayload [⟨[98], [50]⟩, ⟨[97], [49]⟩]) :=
  c9_block_determinism [⟨[98], [50]⟩, ⟨[97], [49]⟩] [⟨[97], [49]⟩, ⟨[98], [50]⟩]
    (by decide) (by decide)

/-- Claim C10 (counterexample): closing a freshly opened engine does not
create a level-0 block file: Engine.Close sets the closed flag and then
self-deadlocks re-acquiring the engine lock inside createCheckpoint, so
the final flush never runs and level 0 stays empty. -/
theorem c10_counterexample :
    closeModel freshEngine =
      CloseResult.deadlock { freshEngine with closed := true } ∧
    ({ freshEngine with closed := true } : EngineState).levels = emptyLevels ∧
    emptyLevels.headD [] = [] := by
  exact ⟨rfl, rfl, rfl⟩

/-- Claim C10 (amended): every flush cycle that runs does unconditionally
encode the current memtable as one new level-0 block, even an empty
memtable, whose records are the sorted memtable pairs; for the fresh
engine the flush would create a block with zero records.  But Engine.Close
never reaches its final flush: it deadlocks on its own lock inside
createCheckpoint, so closing a freshly opened engine creates no level-0
block file. -/
theorem c10_amended :
    (∀ (s : EngineState) (path : List Nat) (createdAt : Nat),
      ∃ b : BlockM,
        flushModel path createdAt s =
          { s with mem := [], memSize := 0,
                   levels := match s.levels with
                     | [] => [[b]]
                     | l0 :: rest => (l0 ++ [b]) :: rest } ∧
        b.records = sortPairs (s.mem.map (fun kv => KeyValuePair.mk kv.1 kv.2))) ∧
    flushModel [112] 5 freshEngine =
      { mem := [], memSize := 0, wal := [],
        levels := [{ path := [112], size := 82, minKey := [], maxKey := [],
                     createdAt := 5, records := [] }] :: [[], [], [], [], [], []],
        closed := false } ∧
    closeModel freshEngine =
      CloseResult.deadlock { freshEngine with closed := true } := by
  refine ⟨?_, ?_, rfl⟩
  · intro s path createdAt
    exact ⟨_, rfl, rfl⟩
  · decide

end River
